import Mathlib

/-!
# Verification of the snaplet seed-data generation engine

A shallow embedding of the relational synthetic-data generation engine whose
generated client surface lives in `src/.snaplet/snaplet-client.d.ts`.

The nine-table schema (tables, scalar columns, parent relationships and their
foreign-key columns) is transcribed from the declaration file.  The engine
itself (Seed Generator, Store, Plan Node Resolver, Plan composition,
Persistence Emitter) is not part of the repository's sources — only its
declared interface is — so those operations are modelled from the spec, as
marked on each definition.
-/

namespace SnapGen

/-- The nine table names of the schema in `snaplet-client.d.ts` (`Store` type,
lines 295–305). -/
inductive Tbl where
  | channel
  | channel_member
  | channel_thread
  | channel_thread_message
  | user_message
  | users
  | workspace
  | workspace_member
  | workspace_user_type
deriving DecidableEq, Fintype

/-- All tables, in the declaration order of the `Store` type. -/
def allTbls : List Tbl :=
  [.channel, .channel_member, .channel_thread, .channel_thread_message,
   .user_message, .users, .workspace, .workspace_member, .workspace_user_type]

/-- SQL name of a table, as it appears in the declaration file. -/
def tblName : Tbl → String
  | .channel => "channel"
  | .channel_member => "channel_member"
  | .channel_thread => "channel_thread"
  | .channel_thread_message => "channel_thread_message"
  | .user_message => "user_message"
  | .users => "users"
  | .workspace => "workspace"
  | .workspace_member => "workspace_member"
  | .workspace_user_type => "workspace_user_type"

/-- Scalar column types occurring in the schema (`string` and `boolean`). -/
inductive ColTy where
  | str
  | boolTy
deriving DecidableEq

/-- A scalar column: name, type, nullability (`string | null` in the source)
and has-default flag (`?` marker in the source). -/
structure Col where
  name : String
  ty : ColTy
  nullable : Bool
  hasDefault : Bool
deriving DecidableEq

/-- Scalar values (all columns of this schema are strings or booleans; `vnull`
is SQL NULL). -/
inductive Val where
  | vstr (s : String)
  | vbool (b : Bool)
  | vnull
deriving DecidableEq

/-- A row: mapping from column name to scalar value, represented as an
association list ("Row" of the spec's data model). -/
abbrev Row := List (String × Val)

/-- Look a column up in a row; absent columns read as NULL. -/
def rowGet (r : Row) (c : String) : Val :=
  match r.find? (fun q => q.1 == c) with
  | some q => q.2
  | none => Val.vnull

/-- The scalar columns of each table, in declaration order, transcribed from
the `*Scalars` types of `snaplet-client.d.ts`. -/
def scalarCols : Tbl → List Col
  | .channel =>
    [⟨"id", .str, false, false⟩, ⟨"name", .str, false, false⟩,
     ⟨"is_public", .boolTy, false, false⟩, ⟨"workspace_id", .str, false, false⟩,
     ⟨"created_at", .str, false, true⟩, ⟨"updated_at", .str, false, true⟩,
     ⟨"created_by", .str, false, false⟩]
  | .channel_member =>
    [⟨"id", .str, false, false⟩, ⟨"channel_id", .str, false, false⟩,
     ⟨"user_id", .str, false, false⟩, ⟨"created_at", .str, false, true⟩,
     ⟨"updated_at", .str, false, true⟩]
  | .channel_thread =>
    [⟨"id", .str, false, false⟩, ⟨"channel_id", .str, false, false⟩,
     ⟨"created_at", .str, false, true⟩, ⟨"updated_at", .str, false, true⟩]
  | .channel_thread_message =>
    [⟨"id", .str, false, false⟩, ⟨"user_id", .str, false, false⟩,
     ⟨"channel_thread_id", .str, false, false⟩, ⟨"message", .str, false, false⟩,
     ⟨"created_at", .str, false, true⟩, ⟨"updated_at", .str, false, true⟩]
  | .user_message =>
    [⟨"id", .str, false, false⟩, ⟨"user_id", .str, false, false⟩,
     ⟨"recipient_id", .str, false, false⟩, ⟨"message", .str, false, false⟩,
     ⟨"created_at", .str, false, true⟩, ⟨"updated_at", .str, false, true⟩,
     ⟨"workspace_id", .str, false, false⟩]
  | .users =>
    [⟨"id", .str, false, true⟩, ⟨"name", .str, false, false⟩,
     ⟨"email", .str, false, false⟩, ⟨"display_name", .str, true, false⟩,
     ⟨"bio", .str, true, false⟩, ⟨"phone_number", .str, true, false⟩,
     ⟨"timezone", .str, true, false⟩, ⟨"created_at", .str, false, true⟩,
     ⟨"updated_at", .str, false, true⟩, ⟨"last_seen", .str, true, false⟩,
     ⟨"password", .str, false, false⟩]
  | .workspace =>
    [⟨"id", .str, false, false⟩, ⟨"name", .str, false, false⟩,
     ⟨"owner_id", .str, false, false⟩, ⟨"created_at", .str, false, true⟩,
     ⟨"updated_at", .str, false, true⟩, ⟨"url_slug", .str, false, false⟩]
  | .workspace_member =>
    [⟨"user_id", .str, false, false⟩, ⟨"workspace_id", .str, false, false⟩,
     ⟨"created_at", .str, false, true⟩, ⟨"updated_at", .str, false, true⟩,
     ⟨"type", .str, false, true⟩]
  | .workspace_user_type => [⟨"type", .str, false, false⟩]

/-- A parent relationship of the schema: its (unique) name, the target table,
the single foreign-key column it owns on the child side, the referenced column
on the parent side, and whether the relationship is optional (its foreign-key
column may stay unset).  Every relationship of this schema goes through
exactly one column ("through the column X" in the declaration file). -/
structure Rel where
  name : String
  target : Tbl
  fkCol : String
  toCol : String
  nullable : Bool
deriving DecidableEq

/-- The parent relationships of each table, in the declaration order of the
`*ParentsInputs` types of `snaplet-client.d.ts`.  `workspace_member.type` has
a database default, so that relationship is the only optional one. -/
def parentRels : Tbl → List Rel
  | .channel => [⟨"workspace", .workspace, "workspace_id", "id", false⟩]
  | .channel_member =>
    [⟨"channel", .channel, "channel_id", "id", false⟩,
     ⟨"users", .users, "user_id", "id", false⟩]
  | .channel_thread => [⟨"channel", .channel, "channel_id", "id", false⟩]
  | .channel_thread_message =>
    [⟨"channel_thread", .channel_thread, "channel_thread_id", "id", false⟩,
     ⟨"users", .users, "user_id", "id", false⟩]
  | .user_message =>
    [⟨"users_user_message_recipient_idTousers", .users, "recipient_id", "id", false⟩,
     ⟨"users_user_message_user_idTousers", .users, "user_id", "id", false⟩,
     ⟨"workspace", .workspace, "workspace_id", "id", false⟩]
  | .users => []
  | .workspace => [⟨"users", .users, "owner_id", "id", false⟩]
  | .workspace_member =>
    [⟨"users", .users, "user_id", "id", false⟩,
     ⟨"workspace", .workspace, "workspace_id", "id", false⟩,
     ⟨"workspace_user_type", .workspace_user_type, "type", "type", true⟩]
  | .workspace_user_type => []

/-- The foreign-key column names of a table (one per parent relationship). -/
def fkColNames (t : Tbl) : List String := (parentRels t).map (fun rel => rel.fkCol)

/-- The Store: a mapping from table name to the ordered sequence of rows
(`Store` type of the declaration file). -/
structure Store where
  channel : List Row
  channel_member : List Row
  channel_thread : List Row
  channel_thread_message : List Row
  user_message : List Row
  users : List Row
  workspace : List Row
  workspace_member : List Row
  workspace_user_type : List Row
deriving DecidableEq

/-- Rows of one table of a store. -/
def Store.rows (s : Store) : Tbl → List Row
  | .channel => s.channel
  | .channel_member => s.channel_member
  | .channel_thread => s.channel_thread
  | .channel_thread_message => s.channel_thread_message
  | .user_message => s.user_message
  | .users => s.users
  | .workspace => s.workspace
  | .workspace_member => s.workspace_member
  | .workspace_user_type => s.workspace_user_type

/-- Append a row at the end of one table's sequence (the Store is
append-only during resolution). -/
def Store.append (s : Store) (t : Tbl) (r : Row) : Store :=
  match t with
  | .channel => { s with channel := s.channel ++ [r] }
  | .channel_member => { s with channel_member := s.channel_member ++ [r] }
  | .channel_thread => { s with channel_thread := s.channel_thread ++ [r] }
  | .channel_thread_message =>
    { s with channel_thread_message := s.channel_thread_message ++ [r] }
  | .user_message => { s with user_message := s.user_message ++ [r] }
  | .users => { s with users := s.users ++ [r] }
  | .workspace => { s with workspace := s.workspace ++ [r] }
  | .workspace_member => { s with workspace_member := s.workspace_member ++ [r] }
  | .workspace_user_type =>
    { s with workspace_user_type := s.workspace_user_type ++ [r] }

/-- The empty store. -/
def emptyStore : Store := ⟨[], [], [], [], [], [], [], [], []⟩

/-- Modelled from the spec (§4.3 `merge`): per-table concatenation of two
stores, preserving each input's relative order, never deduplicating. -/
def Store.merge (a b : Store) : Store :=
  ⟨a.channel ++ b.channel, a.channel_member ++ b.channel_member,
   a.channel_thread ++ b.channel_thread,
   a.channel_thread_message ++ b.channel_thread_message,
   a.user_message ++ b.user_message, a.users ++ b.users,
   a.workspace ++ b.workspace, a.workspace_member ++ b.workspace_member,
   a.workspace_user_type ++ b.workspace_user_type⟩

theorem rows_append_same (s : Store) (t : Tbl) (r : Row) :
    (s.append t r).rows t = s.rows t ++ [r] := by
  cases t <;> rfl

theorem rows_append_ne (s : Store) {t t' : Tbl} (r : Row) (h : t' ≠ t) :
    (s.append t r).rows t' = s.rows t' := by
  cases t <;> cases t' <;> first
    | exact absurd rfl h
    | rfl

theorem rows_merge (a b : Store) (t : Tbl) :
    (a.merge b).rows t = a.rows t ++ b.rows t := by
  cases t <;> rfl

theorem rows_emptyStore (t : Tbl) : emptyStore.rows t = [] := by
  cases t <;> rfl

theorem merge_emptyStore_left (s : Store) : emptyStore.merge s = s := by
  cases s; rfl

/-! ## Seed Generator

Modelled from the spec (§4.2): a deterministic pseudo-random value producer
keyed by a hierarchical seed path.  The concrete hash is unspecified by the
spec; any pure function of the seed string is a faithful model. -/

/-- Least-significant-first decimal digits of `n`; the first argument is fuel
(structural, so the kernel can evaluate it), always called with fuel `> n`. -/
def digitsRev : Nat → Nat → List Nat
  | 0, _ => []
  | f + 1, n => if n < 10 then [n] else n % 10 :: digitsRev f (n / 10)

/-- Reassemble a least-significant-first digit list into a number. -/
def undigits : List Nat → Nat
  | [] => 0
  | d :: rest => d + 10 * undigits rest

/-- Decimal rendering of a natural number (used for the iteration indices of
seed paths). -/
def natToStr (n : Nat) : String :=
  ⟨((digitsRev (n + 1) n).reverse.map (fun d => Char.ofNat (48 + d)))⟩

theorem undigits_digitsRev : ∀ f n, n ≤ f → undigits (digitsRev f n) = n := by
  intro f
  induction f with
  | zero => intro n hn; interval_cases n; rfl
  | succ f ih =>
    intro n hn
    by_cases h10 : n < 10
    · simp [digitsRev, h10, undigits]
    · have hdiv : n / 10 ≤ f := by
        have : n / 10 < n := Nat.div_lt_self (by omega) (by omega)
        omega
      simp only [digitsRev, h10, if_false, undigits, ih _ hdiv]
      omega

theorem digitsRev_lt : ∀ f n d, d ∈ digitsRev f n → d < 10 := by
  intro f
  induction f with
  | zero => intro n d hd; simp [digitsRev] at hd
  | succ f ih =>
    intro n d hd
    by_cases h10 : n < 10
    · simp [digitsRev, h10] at hd; omega
    · simp only [digitsRev, h10, if_false, List.mem_cons] at hd
      rcases hd with h | h
      · omega
      · exact ih _ _ h

theorem digitChar_toNat {d : Nat} (hd : d < 10) :
    (Char.ofNat (48 + d)).toNat = 48 + d := by
  interval_cases d <;> decide

theorem digitChar_ne_slash {d : Nat} (hd : d < 10) :
    (Char.ofNat (48 + d) != '/') = true := by
  interval_cases d <;> decide

theorem map_digitChar_inj : ∀ l₁ l₂ : List Nat, (∀ d ∈ l₁, d < 10) →
    (∀ d ∈ l₂, d < 10) →
    l₁.map (fun d => Char.ofNat (48 + d)) = l₂.map (fun d => Char.ofNat (48 + d)) →
    l₁ = l₂ := by
  intro l₁
  induction l₁ with
  | nil => intro l₂ _ _ h; cases l₂ <;> simp_all
  | cons d₁ rest₁ ih =>
    intro l₂ h₁ h₂ h
    cases l₂ with
    | nil => simp at h
    | cons d₂ rest₂ =>
      simp only [List.map_cons, List.cons.injEq] at h
      have hd₁ : d₁ < 10 := h₁ d₁ (by simp)
      have hd₂ : d₂ < 10 := h₂ d₂ (by simp)
      have : 48 + d₁ = 48 + d₂ := by
        have := congrArg Char.toNat h.1
        rwa [digitChar_toNat hd₁, digitChar_toNat hd₂] at this
      refine List.cons_eq_cons.mpr ⟨by omega, ?_⟩
      exact ih rest₂ (fun d hd => h₁ d (by simp [hd])) (fun d hd => h₂ d (by simp [hd])) h.2

theorem natToStr_inj {m n : Nat} (h : natToStr m = natToStr n) : m = n := by
  have hdata := congrArg String.data h
  simp only [natToStr] at hdata
  have hmap := map_digitChar_inj (digitsRev (m + 1) m).reverse (digitsRev (n + 1) n).reverse
    (fun d hd => digitsRev_lt _ _ _ (List.mem_reverse.mp hd))
    (fun d hd => digitsRev_lt _ _ _ (List.mem_reverse.mp hd)) hdata
  have := congrArg undigits (List.reverse_injective hmap)
  rwa [undigits_digitsRev _ _ (Nat.le_succ m), undigits_digitsRev _ _ (Nat.le_succ n)] at this

/-- `true` when the string contains no `/` separator. -/
def noSlash (s : String) : Bool := s.data.all (fun ch => ch != '/')

theorem natToStr_noSlash (n : Nat) : noSlash (natToStr n) = true := by
  simp only [noSlash, natToStr, List.all_eq_true]
  intro ch hch
  simp only [List.mem_map, List.mem_reverse] at hch
  obtain ⟨d, hd, hdc⟩ := hch
  exact hdc ▸ digitChar_ne_slash (digitsRev_lt _ _ _ hd)

/-- Modelled from the spec (§4.2): a deterministic hash of a seed string,
driving every pseudo-random draw. -/
def strHash (s : String) : Nat :=
  s.data.foldl (fun h c => (h * 31 + c.toNat + 1) % 4294967296) 7

/-- Modelled from the spec (§4.2 `derive`): extend a seed path with one salt
component. -/
def derive (path salt : String) : String := path ++ "/" ++ salt

/-- The seed path of row `i` of table `t` generated below `path` (spec §3
"Seed Path": append the table name and an iteration index; example in the
declaration file: `"<hash>/0/users/0"`). -/
def modelSeedOf (path : String) (t : Tbl) (i : Nat) : String :=
  path ++ "/" ++ tblName t ++ "/" ++ natToStr i

/-- The seed path of one field below a row's model seed (example in the
declaration file: `"<hash>/0/users/0/email"`). -/
def fieldSeed (ms : String) (c : String) : String := ms ++ "/" ++ c

/-- Modelled from the spec (§4.2 `randomScalar`): the default generated value
of a field, a pure function of its seed path and column type. -/
def genVal (seed : String) : ColTy → Val
  | .str => .vstr ("v" ++ natToStr (strHash seed))
  | .boolTy => .vbool (strHash seed % 2 == 1)

/-- Cardinality specification of a Request Node: an exact count or an
inclusive min/max range (`xCallbackFn`, lines 54–57 of the declaration
file). -/
inductive Card where
  | exact (n : Nat)
  | range (lo hi : Nat)

/-- Modelled from the spec (§4.2 `randomCount`): the number of rows drawn for
one node, drawn once per node from the node's seed. -/
def randomCount (seed : String) : Card → Nat
  | .exact n => n
  | .range lo hi => if lo ≤ hi then lo + strHash seed % (hi - lo + 1) else lo

/-- Modelled from the spec (§4.2 `choose`): pick an index among `n`
candidates. -/
def choose (seed : String) (n : Nat) : Nat := strHash seed % n

/-! ## Request Nodes and the Plan Node Resolver

Modelled from the spec (§3 "Request Node", §4.4): the in-flight resolution
unit.  Per-row callback inputs are modelled by their resolved static values;
a parent-connection override is modelled by the index of the existing target
row it identifies (spec §4.4 step 2: a connect result must identify an
existing row; the engine never invents a foreign key that matches no row). -/

/-- A Request Node: target table, cardinality, user scalar overrides, user
parent-connection overrides (relationship name ↦ index of an existing target
row), the name of the parent relationship linking this node back to the
invoking parent when it occurs as a nested child request, and the nested
child requests. -/
inductive RequestNode : Type where
  | mk (table : Tbl) (card : Card)
       (scalarOv : List (String × Val))
       (parentOv : List (String × Nat))
       (childRel : String)
       (kids : List RequestNode)

/-- Target table of a Request Node. -/
def RequestNode.table : RequestNode → Tbl
  | .mk t _ _ _ _ _ => t

/-- Modelled from the spec (§4.4 step 1): the generated scalar part of one
row — every scalar column that is not a foreign-key column gets the user's
static value when provided, else the Seed Generator's value keyed by
`modelSeed/column`. -/
def scalarPart (ms : String) (t : Tbl) (sOv : List (String × Val)) : Row :=
  (scalarCols t).filterMap fun c =>
    if (fkColNames t).contains c.name then none
    else
      match sOv.find? (fun q => q.1 == c.name) with
      | some q => some (c.name, q.2)
      | none => some (c.name, genVal (fieldSeed ms c.name) c.ty)

/-- The empty/default Request Node used when a required parent must be
auto-created (spec §4.4 step 2, third bullet). -/
def defaultNode (t : Tbl) : RequestNode := .mk t (.exact 1) [] [] "" []

/-- Pre-set a nested child request's foreign key back to the parent row being
built: prepend (so it wins over any user override) a connection of the
child's back-pointing relationship to the parent row's index (spec §4.4
step 4). -/
def presetParent : RequestNode → Nat → RequestNode
  | .mk t card sOv pOv cr kids, idx => .mk t card sOv ((cr, idx) :: pOv) cr kids

/-- Modelled from the spec (§4.4 step 2): resolve one parent relationship,
returning the possibly-grown store and the value of the relationship's
foreign-key column.  Priority: user/preset connection override, then
auto-connect to an existing row, then NULL for an optional relationship,
else recursive creation of one new parent row. -/
def parentStep (recur : Bool → String → Store → RequestNode → Option (Store × List Row))
    (ac : Bool) (ms : String) (pOv : List (String × Nat)) (s : Store) (rel : Rel) :
    Option (Store × Val) :=
  match pOv.find? (fun q => q.1 == rel.name) with
  | some ov =>
    match (s.rows rel.target).get? ov.2 with
    | some p => some (s, rowGet p rel.toCol)
    | none => none
  | none =>
    if ac && !(s.rows rel.target).isEmpty then
      match (s.rows rel.target).get? (choose (fieldSeed ms rel.name) (s.rows rel.target).length) with
      | some p => some (s, rowGet p rel.toCol)
      | none => none
    else if rel.nullable then some (s, Val.vnull)
    else
      match recur ac (fieldSeed ms rel.name) s (defaultNode rel.target) with
      | some (s₁, created) =>
        match created.head? with
        | some p => some (s₁, rowGet p rel.toCol)
        | none => none
      | none => none

/-- Resolve the parent relationships of one row in table-declaration order,
threading the store and collecting the foreign-key column assignments. -/
def resolveParents (recur : Bool → String → Store → RequestNode → Option (Store × List Row))
    (ac : Bool) (ms : String) (pOv : List (String × Nat)) :
    Store → List Rel → Option (Store × Row)
  | s, [] => some (s, [])
  | s, rel :: rest =>
    match parentStep recur ac ms pOv s rel with
    | none => none
    | some (s₁, v) =>
      match resolveParents recur ac ms pOv s₁ rest with
      | none => none
      | some (s₂, fkRest) => some (s₂, (rel.fkCol, v) :: fkRest)

/-- Modelled from the spec (§4.4 step 4): resolve each nested child request,
pre-setting its foreign key back to the just-created parent row (index
`idx`). -/
def resolveKids (recur : Bool → String → Store → RequestNode → Option (Store × List Row))
    (ac : Bool) (ms : String) (idx : Nat) : Store → List RequestNode → Option Store
  | s, [] => some s
  | s, kid :: rest =>
    match recur ac ms s (presetParent kid idx) with
    | none => none
    | some (s₁, _) => resolveKids recur ac ms idx s₁ rest

/-- Modelled from the spec (§4.4 steps 1–4): build one row of table `t` at
iteration index `i`: scalars, then parents, then append the row, then nested
children. -/
def resolveOneRow (recur : Bool → String → Store → RequestNode → Option (Store × List Row))
    (ac : Bool) (path : String) (t : Tbl) (sOv : List (String × Val))
    (pOv : List (String × Nat)) (kids : List RequestNode) (i : Nat) (s : Store) :
    Option (Store × Row) :=
  match resolveParents recur ac (modelSeedOf path t i) pOv s (parentRels t) with
  | none => none
  | some (s₁, fkRow) =>
    match resolveKids recur ac (modelSeedOf path t i) ((s₁.rows t).length)
        (s₁.append t (scalarPart (modelSeedOf path t i) t sOv ++ fkRow)) kids with
    | none => none
    | some s₃ => some (s₃, scalarPart (modelSeedOf path t i) t sOv ++ fkRow)

/-- The per-node row loop: build `k` rows starting at iteration index `i`,
returning the grown store and the list of rows this node created. -/
def resolveRows (recur : Bool → String → Store → RequestNode → Option (Store × List Row))
    (ac : Bool) (path : String) (t : Tbl) (sOv : List (String × Val))
    (pOv : List (String × Nat)) (kids : List RequestNode) :
    Nat → Nat → Store → Option (Store × List Row)
  | 0, _, s => some (s, [])
  | k + 1, i, s =>
    match resolveOneRow recur ac path t sOv pOv kids i s with
    | none => none
    | some (s₁, r) =>
      match resolveRows recur ac path t sOv pOv kids k (i + 1) s₁ with
      | none => none
      | some (s₂, rs) => some (s₂, r :: rs)

/-- One expansion step of the resolver: draw the node's row count once from
the node's seed, then run the row loop. -/
def resolveStep (recur : Bool → String → Store → RequestNode → Option (Store × List Row))
    (ac : Bool) (path : String) (s : Store) : RequestNode → Option (Store × List Row)
  | .mk t card sOv pOv _ kids =>
    resolveRows recur ac path t sOv pOv kids
      (randomCount (derive path (tblName t)) card) 0 s

/-- Modelled from the spec (§4.4): the Plan Node Resolver.  The fuel bounds
the recursion depth (the spec's depth/seed-path guard); exhausted fuel is a
resolution failure. -/
def resolveNode : Nat → Bool → String → Store → RequestNode → Option (Store × List Row)
  | 0, _, _, _, _ => none
  | fuel + 1, ac, path, s, node => resolveStep (resolveNode fuel) ac path s node

/-! ## Store growth and referential integrity -/

/-- `b` extends `a` table-wise at the end (resolution is append-only). -/
def storeGrows (a b : Store) : Prop := ∀ t, ∃ ext, b.rows t = a.rows t ++ ext

/-- Table-wise row containment. -/
def storeSub (a b : Store) : Prop := ∀ t, ∀ r ∈ a.rows t, r ∈ b.rows t

theorem storeGrows_refl (s : Store) : storeGrows s s := fun t => ⟨[], by simp⟩

theorem storeGrows_trans {a b c : Store} (h₁ : storeGrows a b) (h₂ : storeGrows b c) :
    storeGrows a c := by
  intro t
  obtain ⟨e₁, he₁⟩ := h₁ t
  obtain ⟨e₂, he₂⟩ := h₂ t
  exact ⟨e₁ ++ e₂, by simp [he₂, he₁]⟩

theorem storeGrows_append (s : Store) (t : Tbl) (r : Row) :
    storeGrows s (s.append t r) := by
  intro t'
  by_cases h : t' = t
  · subst h; exact ⟨[r], rows_append_same s t' r⟩
  · exact ⟨[], by simp [rows_append_ne s r h]⟩

theorem storeGrows_sub {a b : Store} (h : storeGrows a b) : storeSub a b := by
  intro t r hr
  obtain ⟨ext, hext⟩ := h t
  simp [hext, hr]

theorem storeGrows_get? {a b : Store} (h : storeGrows a b) {t : Tbl} {i : Nat} {p : Row}
    (hp : (a.rows t).get? i = some p) : (b.rows t).get? i = some p := by
  obtain ⟨ext, hext⟩ := h t
  have hi : i < (a.rows t).length := (List.get?_eq_some.mp hp).1
  rw [hext, List.get?_append hi]
  exact hp

/-- A row's parent relationships are all accounted for in store `s`: each
either references an existing row of the target table, or is optional and
left NULL (spec §8 "Referential integrity" and §4.4 step 2, last bullet). -/
def RowRef (s : Store) (t : Tbl) (r : Row) : Prop :=
  ∀ rel ∈ parentRels t,
    (∃ p ∈ s.rows rel.target, rowGet r rel.fkCol = rowGet p rel.toCol) ∨
    (rel.nullable = true ∧ rowGet r rel.fkCol = Val.vnull)

/-- Referential integrity of a whole store. -/
def StoreOk (s : Store) : Prop := ∀ t, ∀ r ∈ s.rows t, RowRef s t r

theorem RowRef.mono {a b : Store} (h : storeSub a b) {t : Tbl} {r : Row}
    (hr : RowRef a t r) : RowRef b t r := by
  intro rel hrel
  rcases hr rel hrel with ⟨p, hp, hv⟩ | hn
  · exact Or.inl ⟨p, h _ _ hp, hv⟩
  · exact Or.inr hn

theorem mem_rows_append {s : Store} {t t' : Tbl} {r r' : Row} :
    r' ∈ (s.append t r).rows t' ↔ r' ∈ s.rows t' ∨ (t' = t ∧ r' = r) := by
  by_cases h : t' = t
  · subst h; simp [rows_append_same]
  · simp [rows_append_ne s r h, h]

theorem StoreOk.append {s : Store} {t : Tbl} {r : Row} (hs : StoreOk s)
    (hr : RowRef s t r) : StoreOk (s.append t r) := by
  intro t' r' hr'
  have hsub : storeSub s (s.append t r) := storeGrows_sub (storeGrows_append s t r)
  rcases mem_rows_append.mp hr' with h | ⟨ht, hrr⟩
  · exact (hs t' r' h).mono hsub
  · subst ht; subst hrr; exact hr.mono hsub

theorem storeOk_emptyStore : StoreOk emptyStore := by
  intro t r hr
  simp [rows_emptyStore] at hr

theorem StoreOk.merge {a b : Store} (ha : StoreOk a) (hb : StoreOk b) :
    StoreOk (a.merge b) := by
  intro t r hr
  have hsa : storeSub a (a.merge b) := by
    intro t' r' h; simp [rows_merge, h]
  have hsb : storeSub b (a.merge b) := by
    intro t' r' h; simp [rows_merge, h]
  rw [rows_merge, List.mem_append] at hr
  rcases hr with h | h
  · exact (ha t r h).mono hsa
  · exact (hb t r h).mono hsb

/-! ## The resolver invariant -/

/-- The invariant satisfied by every fuel instance of the resolver: a
successful resolution only appends to the store, preserves referential
integrity, and every row it reports as created for the node is in the final
store under the node's table. -/
def NodeInv (f : Bool → String → Store → RequestNode → Option (Store × List Row)) : Prop :=
  ∀ ac path s node s' created, f ac path s node = some (s', created) →
    storeGrows s s' ∧ (StoreOk s → StoreOk s') ∧ ∀ r ∈ created, r ∈ s'.rows node.table

theorem head?_mem {α : Type} {l : List α} {a : α} (h : l.head? = some a) : a ∈ l := by
  cases l with
  | nil => simp at h
  | cons x xs => simp at h; simp [h]

theorem parentStep_ok {recur} (hrec : NodeInv recur) {ac ms pOv s rel s₁ v}
    (h : parentStep recur ac ms pOv s rel = some (s₁, v)) :
    storeGrows s s₁ ∧ (StoreOk s → StoreOk s₁) ∧
      ((∃ p ∈ s₁.rows rel.target, v = rowGet p rel.toCol) ∨
       (rel.nullable = true ∧ v = Val.vnull)) := by
  unfold parentStep at h
  split at h
  · -- user/preset connection override
    split at h
    · rename_i p hget
      simp only [Option.some.injEq, Prod.mk.injEq] at h
      obtain ⟨hs, hv⟩ := h
      subst hs; subst hv
      exact ⟨storeGrows_refl s, id, Or.inl ⟨p, List.get?_mem hget, rfl⟩⟩
    · exact absurd h (by simp)
  · split at h
    · -- auto-connect to an existing row
      split at h
      · rename_i p hget
        simp only [Option.some.injEq, Prod.mk.injEq] at h
        obtain ⟨hs, hv⟩ := h
        subst hs; subst hv
        exact ⟨storeGrows_refl s, id, Or.inl ⟨p, List.get?_mem hget, rfl⟩⟩
      · exact absurd h (by simp)
    · split at h
      · -- optional relationship left NULL
        rename_i hnul
        simp only [Option.some.injEq, Prod.mk.injEq] at h
        obtain ⟨hs, hv⟩ := h
        subst hs; subst hv
        exact ⟨storeGrows_refl s, id, Or.inr ⟨hnul, rfl⟩⟩
      · -- recursive creation of one new parent row
        split at h
        · rename_i sr created hr
          split at h
          · rename_i p hhd
            simp only [Option.some.injEq, Prod.mk.injEq] at h
            obtain ⟨hs, hv⟩ := h
            subst hs; subst hv
            obtain ⟨hg, hok, hmem⟩ := hrec ac _ s _ _ _ hr
            exact ⟨hg, hok, Or.inl ⟨p, hmem p (head?_mem hhd), rfl⟩⟩
          · exact absurd h (by simp)
        · exact absurd h (by simp)

/-! ### Row lookup lemmas -/

theorem rowGet_cons_self (c : String) (v : Val) (r : Row) :
    rowGet ((c, v) :: r) c = v := by
  unfold rowGet
  rw [List.find?_cons_of_pos _ (by simp)]

theorem rowGet_cons_ne {c c' : String} (v : Val) (r : Row) (h : ¬ c = c') :
    rowGet ((c, v) :: r) c' = rowGet r c' := by
  unfold rowGet
  rw [List.find?_cons_of_neg _ (by simp [h])]

theorem rowGet_append_skip {c : String} {b : Row} :
    ∀ a : Row, (∀ q ∈ a, ¬ q.1 = c) → rowGet (a ++ b) c = rowGet b c := by
  intro a
  induction a with
  | nil => simp
  | cons q rest ih =>
    intro hq
    obtain ⟨c₀, v₀⟩ := q
    have hne : ¬ c₀ = c := by simpa using hq (c₀, v₀) (by simp)
    rw [List.cons_append, rowGet_cons_ne v₀ (rest ++ b) hne]
    exact ih fun q hqm => hq q (by simp [hqm])

theorem contains_true_of_mem {a : String} {l : List String} (h : a ∈ l) :
    l.contains a = true :=
  List.elem_eq_true_of_mem h

theorem scalarPart_keys {ms : String} {t : Tbl} {sOv : List (String × Val)} :
    ∀ q ∈ scalarPart ms t sOv, (fkColNames t).contains q.1 = false := by
  intro q hq
  simp only [scalarPart, List.mem_filterMap] at hq
  obtain ⟨c, _, hfc⟩ := hq
  split at hfc
  · exact absurd hfc (by simp)
  · rename_i hcond
    split at hfc <;> simp only [Option.some.injEq] at hfc <;> subst hfc <;>
      exact Bool.eq_false_iff.mpr hcond

/-- Schema fact: within one table, the foreign-key columns of the parent
relationships are pairwise distinct. -/
theorem fkCols_nodup : ∀ t : Tbl, ((parentRels t).map Rel.fkCol).Nodup := by
  decide

theorem rowGet_scalarFk {ms : String} {t : Tbl} {sOv : List (String × Val)}
    {fkRow : Row} {rel : Rel} (hrel : rel ∈ parentRels t) :
    rowGet (scalarPart ms t sOv ++ fkRow) rel.fkCol = rowGet fkRow rel.fkCol := by
  apply rowGet_append_skip
  intro q hq hq1
  have hmem : rel.fkCol ∈ fkColNames t := List.mem_map_of_mem Rel.fkCol hrel
  have := scalarPart_keys q hq
  rw [hq1, contains_true_of_mem hmem] at this
  exact absurd this (by simp)

/-! ### Invariants of the resolver's helper loops -/

theorem resolveParents_ok {recur} (hrec : NodeInv recur) {ac : Bool} {ms : String}
    {pOv : List (String × Nat)} :
    ∀ (rels : List Rel) (s s₁ : Store) (fkRow : Row),
      resolveParents recur ac ms pOv s rels = some (s₁, fkRow) →
      storeGrows s s₁ ∧ (StoreOk s → StoreOk s₁) ∧
      ((rels.map Rel.fkCol).Nodup →
        ∀ rel ∈ rels,
          (∃ p ∈ s₁.rows rel.target, rowGet fkRow rel.fkCol = rowGet p rel.toCol) ∨
          (rel.nullable = true ∧ rowGet fkRow rel.fkCol = Val.vnull)) := by
  intro rels
  induction rels with
  | nil =>
    intro s s₁ fkRow h
    simp only [resolveParents, Option.some.injEq, Prod.mk.injEq] at h
    obtain ⟨hs, hf⟩ := h
    subst hs; subst hf
    exact ⟨storeGrows_refl s, id, by simp⟩
  | cons rel rest ih =>
    intro s s₁ fkRow h
    unfold resolveParents at h
    split at h
    · exact absurd h (by simp)
    · rename_i sa v hstep
      split at h
      · exact absurd h (by simp)
      · rename_i s₂ fkRest hrest
        simp only [Option.some.injEq, Prod.mk.injEq] at h
        obtain ⟨hs, hf⟩ := h
        subst hs; subst hf
        obtain ⟨hg₁, hok₁, hspec⟩ := parentStep_ok hrec hstep
        obtain ⟨hg₂, hok₂, hrestspec⟩ := ih sa _ fkRest hrest
        refine ⟨storeGrows_trans hg₁ hg₂, fun h₀ => hok₂ (hok₁ h₀), ?_⟩
        intro hnd rel' hrel'
        rw [List.map_cons, List.nodup_cons] at hnd
        rcases List.mem_cons.mp hrel' with hhd | htl
        · subst hhd
          rw [rowGet_cons_self]
          rcases hspec with ⟨p, hp, hv⟩ | ⟨hn, hv⟩
          · exact Or.inl ⟨p, storeGrows_sub hg₂ _ _ hp, hv⟩
          · exact Or.inr ⟨hn, hv⟩
        · have hne : ¬ rel.fkCol = rel'.fkCol := by
            intro hcontra
            exact hnd.1 (hcontra ▸ List.mem_map_of_mem Rel.fkCol htl)
          rw [rowGet_cons_ne _ _ hne]
          exact hrestspec hnd.2 rel' htl

theorem resolveKids_ok {recur} (hrec : NodeInv recur) {ac : Bool} {ms : String}
    {idx : Nat} :
    ∀ (kids : List RequestNode) (s s' : Store),
      resolveKids recur ac ms idx s kids = some s' →
      storeGrows s s' ∧ (StoreOk s → StoreOk s') := by
  intro kids
  induction kids with
  | nil =>
    intro s s' h
    simp only [resolveKids, Option.some.injEq] at h
    subst h
    exact ⟨storeGrows_refl s, id⟩
  | cons kid rest ih =>
    intro s s' h
    unfold resolveKids at h
    split at h
    · exact absurd h (by simp)
    · rename_i s₁ created hkid
      obtain ⟨hg₁, hok₁, _⟩ := hrec _ _ _ _ _ _ hkid
      obtain ⟨hg₂, hok₂⟩ := ih s₁ s' h
      exact ⟨storeGrows_trans hg₁ hg₂, fun h₀ => hok₂ (hok₁ h₀)⟩

theorem resolveOneRow_ok {recur} (hrec : NodeInv recur) {ac : Bool} {path : String}
    {t : Tbl} {sOv : List (String × Val)} {pOv : List (String × Nat)}
    {kids : List RequestNode} {i : Nat} {s s₃ : Store} {row : Row}
    (h : resolveOneRow recur ac path t sOv pOv kids i s = some (s₃, row)) :
    storeGrows s s₃ ∧ (StoreOk s → StoreOk s₃) ∧ row ∈ s₃.rows t ∧ RowRef s₃ t row := by
  unfold resolveOneRow at h
  split at h
  · exact absurd h (by simp)
  · rename_i s₁ fkRow hpar
    split at h
    · exact absurd h (by simp)
    · rename_i s₃' hkids
      simp only [Option.some.injEq, Prod.mk.injEq] at h
      obtain ⟨hs, hr⟩ := h
      subst hs; subst hr
      obtain ⟨hg₁, hok₁, hspec⟩ := resolveParents_ok hrec _ _ _ _ hpar
      have hspec' := hspec (fkCols_nodup t)
      have hrowref : RowRef s₁ t (scalarPart (modelSeedOf path t i) t sOv ++ fkRow) := by
        intro rel hrel
        rw [rowGet_scalarFk hrel]
        exact hspec' rel hrel
      obtain ⟨hg₂, hok₂⟩ := resolveKids_ok hrec _ _ _ hkids
      have hg₁₂ : storeGrows s₁
          (s₁.append t (scalarPart (modelSeedOf path t i) t sOv ++ fkRow)) :=
        storeGrows_append _ _ _
      have hmem₂ : (scalarPart (modelSeedOf path t i) t sOv ++ fkRow) ∈
          (s₁.append t (scalarPart (modelSeedOf path t i) t sOv ++ fkRow)).rows t := by
        rw [rows_append_same]; simp
      refine ⟨storeGrows_trans hg₁ (storeGrows_trans hg₁₂ hg₂), ?_, ?_, ?_⟩
      · intro h₀
        exact hok₂ ((hok₁ h₀).append hrowref)
      · exact storeGrows_sub hg₂ _ _ hmem₂
      · exact (hrowref.mono (storeGrows_sub hg₁₂)).mono (storeGrows_sub hg₂)

theorem resolveRows_ok {recur} (hrec : NodeInv recur) {ac : Bool} {path : String}
    {t : Tbl} {sOv : List (String × Val)} {pOv : List (String × Nat)}
    {kids : List RequestNode} :
    ∀ (k i : Nat) (s s' : Store) (created : List Row),
      resolveRows recur ac path t sOv pOv kids k i s = some (s', created) →
      storeGrows s s' ∧ (StoreOk s → StoreOk s') ∧ created.length = k ∧
      ∀ r ∈ created, r ∈ s'.rows t := by
  intro k
  induction k with
  | zero =>
    intro i s s' created h
    simp only [resolveRows, Option.some.injEq, Prod.mk.injEq] at h
    obtain ⟨hs, hc⟩ := h
    subst hs; subst hc
    exact ⟨storeGrows_refl s, id, rfl, by simp⟩
  | succ k ih =>
    intro i s s' created h
    unfold resolveRows at h
    split at h
    · exact absurd h (by simp)
    · rename_i s₁ r hone
      split at h
      · exact absurd h (by simp)
      · rename_i s₂ rs hrest
        simp only [Option.some.injEq, Prod.mk.injEq] at h
        obtain ⟨hs, hc⟩ := h
        subst hs; subst hc
        obtain ⟨hg₁, hok₁, hmem₁, _⟩ := resolveOneRow_ok hrec hone
        obtain ⟨hg₂, hok₂, hlen, hmem₂⟩ := ih (i + 1) s₁ _ rs hrest
        refine ⟨storeGrows_trans hg₁ hg₂, fun h₀ => hok₂ (hok₁ h₀), by simp [hlen], ?_⟩
        intro r' hr'
        rcases List.mem_cons.mp hr' with hhd | htl
        · subst hhd; exact storeGrows_sub hg₂ _ _ hmem₁
        · exact hmem₂ r' htl

theorem resolveStep_inv {recur} (hrec : NodeInv recur) : NodeInv (resolveStep recur) := by
  intro ac path s node s' created h
  obtain ⟨t, card, sOv, pOv, cr, kids⟩ := node
  unfold resolveStep at h
  obtain ⟨hg, hok, _, hmem⟩ := resolveRows_ok hrec _ _ _ _ _ h
  exact ⟨hg, hok, hmem⟩

/-- Every fuel instance of the Plan Node Resolver satisfies the append-only /
referential-integrity / created-rows invariant. -/
theorem nodeInv : ∀ fuel, NodeInv (resolveNode fuel)
  | 0 => by
    intro ac path s node s' created h
    simp [resolveNode] at h
  | fuel + 1 => resolveStep_inv (nodeInv fuel)

/-! ## Plans

Modelled from the spec (§4.5): a Plan wraps one or more request trees plus
resolution configuration and is evaluated lazily; `pipe` composes
sequentially (the store is threaded), `merge` composes independently (each
sub-plan runs against its own empty store and the results are
concatenated). -/

/-- A composable Plan: a single-table request, a sequential composition, or
an independent composition; each may carry its own seed option. -/
inductive Plan : Type where
  | table (node : RequestNode) (ac : Bool) (seed : Option String)
  | pipe (plans : List Plan) (seed : Option String)
  | merge (plans : List Plan) (seed : Option String)

/-- A plan-level seed takes precedence over the ambient seed (spec §4.5). -/
def seedOf (ambient : String) : Option String → String
  | some sd => sd
  | none => ambient

/-- Modelled from the spec (§4.5 `pipe`): execute the plans in sequence,
feeding each plan's resulting store to the next; sub-plan `i` is seeded by
the composite's seed extended with `i`. -/
def runSeq (recur : String → Store → Plan → Option Store) (sp : String) :
    Nat → Store → List Plan → Option Store
  | _, s, [] => some s
  | i, s, p :: rest =>
    match recur (derive sp (natToStr i)) s p with
    | none => none
    | some s₁ => runSeq recur sp (i + 1) s₁ rest

/-- Modelled from the spec (§4.5 `merge`): execute each plan against an
independent empty store and concatenate the results in order. -/
def runPar (recur : String → Store → Plan → Option Store) (sp : String) :
    Nat → List Plan → Option Store
  | _, [] => some emptyStore
  | i, p :: rest =>
    match recur (derive sp (natToStr i)) emptyStore p with
    | none => none
    | some s₁ =>
      match runPar recur sp (i + 1) rest with
      | none => none
      | some s₂ => some (s₁.merge s₂)

/-- Modelled from the spec (§4.5, §6 "Plan execution"): execute a Plan
against an initial store under an ambient root seed. -/
def runPlan : Nat → String → Store → Plan → Option Store
  | 0, _, _, _ => none
  | fuel + 1, sp, s, .table node ac sd =>
    match resolveNode fuel ac (seedOf sp sd) s node with
    | none => none
    | some (s₁, _) => some s₁
  | fuel + 1, sp, s, .pipe ps sd => runSeq (runPlan fuel) (seedOf sp sd) 0 s ps
  | fuel + 1, sp, s, .merge ps sd =>
    match runPar (runPlan fuel) (seedOf sp sd) 0 ps with
    | none => none
    | some m => some (s.merge m)

/-- The invariant of plan execution: referential integrity of the store is
preserved. -/
def PlanInv (f : String → Store → Plan → Option Store) : Prop :=
  ∀ sp s p s', f sp s p = some s' → StoreOk s → StoreOk s'

theorem runSeq_ok {recur} (hrec : PlanInv recur) {sp : String} :
    ∀ (ps : List Plan) (i : Nat) (s s' : Store),
      runSeq recur sp i s ps = some s' → StoreOk s → StoreOk s' := by
  intro ps
  induction ps with
  | nil =>
    intro i s s' h
    simp only [runSeq, Option.some.injEq] at h
    subst h; exact id
  | cons p rest ih =>
    intro i s s' h
    unfold runSeq at h
    split at h
    · exact absurd h (by simp)
    · rename_i s₁ hp
      exact fun h₀ => ih (i + 1) s₁ s' h (hrec _ _ _ _ hp h₀)

theorem runPar_ok {recur} (hrec : PlanInv recur) {sp : String} :
    ∀ (ps : List Plan) (i : Nat) (m : Store),
      runPar recur sp i ps = some m → StoreOk m := by
  intro ps
  induction ps with
  | nil =>
    intro i m h
    simp only [runPar, Option.some.injEq] at h
    subst h; exact storeOk_emptyStore
  | cons p rest ih =>
    intro i m h
    unfold runPar at h
    split at h
    · exact absurd h (by simp)
    · rename_i s₁ hp
      split at h
      · exact absurd h (by simp)
      · rename_i s₂ hrest
        simp only [Option.some.injEq] at h
        subst h
        exact (hrec _ _ _ _ hp storeOk_emptyStore).merge (ih (i + 1) s₂ hrest)

/-- Every fuel instance of plan execution preserves referential integrity. -/
theorem planInv : ∀ fuel, PlanInv (runPlan fuel)
  | 0 => by
    intro sp s p s' h
    simp [runPlan] at h
  | fuel + 1 => by
    intro sp s p s' h
    cases p with
    | table node ac sd =>
      unfold runPlan at h
      split at h
      · exact absurd h (by simp)
      · rename_i s₁ created hres
        simp only [Option.some.injEq] at h
        subst h
        exact fun h₀ => (nodeInv fuel _ _ _ _ _ _ hres).2.1 h₀
    | pipe ps sd =>
      unfold runPlan at h
      exact runSeq_ok (planInv fuel) ps 0 s s' h
    | merge ps sd =>
      unfold runPlan at h
      split at h
      · exact absurd h (by simp)
      · rename_i m hm
        simp only [Option.some.injEq] at h
        subst h
        exact fun h₀ => h₀.merge (runPar_ok (planInv fuel) ps 0 m hm)

/-! ## Tracking a connection override through a node resolution -/

/-- The back-pointing relationship name of a child request. -/
def RequestNode.childRel : RequestNode → String
  | .mk _ _ _ _ cr _ => cr

theorem parentStep_override {recur ac ms} {pOv : List (String × Nat)} {s : Store}
    {rel : Rel} {s₁ : Store} {v : Val} {ov : String × Nat} {p : Row}
    (hov : pOv.find? (fun q => q.1 == rel.name) = some ov)
    (hget : (s.rows rel.target).get? ov.2 = some p)
    (h : parentStep recur ac ms pOv s rel = some (s₁, v)) :
    s₁ = s ∧ v = rowGet p rel.toCol := by
  unfold parentStep at h
  split at h
  · rename_i ov' hov'
    rw [hov] at hov'
    obtain rfl : ov = ov' := Option.some.inj hov'
    split at h
    · rename_i p' hget'
      rw [hget] at hget'
      obtain rfl : p = p' := Option.some.inj hget'
      simp only [Option.some.injEq, Prod.mk.injEq] at h
      exact ⟨h.1.symm, h.2.symm⟩
    · rename_i hget'
      rw [hget] at hget'
      exact absurd hget' (by simp)
  · rename_i hov'
    rw [hov] at hov'
    exact absurd hov' (by simp)

theorem resolveParents_override {recur} (hrec : NodeInv recur) {ac : Bool}
    {ms : String} {pOv : List (String × Nat)} {rel : Rel} {ov : String × Nat}
    (hov : pOv.find? (fun q => q.1 == rel.name) = some ov) :
    ∀ (rels : List Rel) (s s₁ : Store) (fkRow : Row) (p : Row),
      resolveParents recur ac ms pOv s rels = some (s₁, fkRow) →
      rel ∈ rels → (rels.map Rel.fkCol).Nodup →
      (s.rows rel.target).get? ov.2 = some p →
      rowGet fkRow rel.fkCol = rowGet p rel.toCol := by
  intro rels
  induction rels with
  | nil => intro s s₁ fkRow p _ hmem; simp at hmem
  | cons rel₀ rest ih =>
    intro s s₁ fkRow p h hmem hnd hget
    unfold resolveParents at h
    split at h
    · exact absurd h (by simp)
    · rename_i sa v hstep
      split at h
      · exact absurd h (by simp)
      · rename_i s₂ fkRest hrest
        simp only [Option.some.injEq, Prod.mk.injEq] at h
        obtain ⟨hs, hf⟩ := h
        subst hs; subst hf
        rw [List.map_cons, List.nodup_cons] at hnd
        rcases List.mem_cons.mp hmem with hhd | htl
        · subst hhd
          obtain ⟨-, hv⟩ := parentStep_override hov hget hstep
          rw [rowGet_cons_self, hv]
        · have hne : ¬ rel₀.fkCol = rel.fkCol := by
            intro hcontra
            exact hnd.1 (hcontra ▸ List.mem_map_of_mem Rel.fkCol htl)
          rw [rowGet_cons_ne _ _ hne]
          have hga : storeGrows s sa := (parentStep_ok hrec hstep).1
          exact ih sa _ fkRest p hrest htl hnd.2 (storeGrows_get? hga hget)

theorem resolveOneRow_override {recur} (hrec : NodeInv recur) {ac : Bool}
    {path : String} {t : Tbl} {sOv : List (String × Val)}
    {pOv : List (String × Nat)} {kids : List RequestNode} {i : Nat}
    {s s₃ : Store} {row : Row} {rel : Rel} {ov : String × Nat} {p : Row}
    (hrel : rel ∈ parentRels t)
    (hov : pOv.find? (fun q => q.1 == rel.name) = some ov)
    (hget : (s.rows rel.target).get? ov.2 = some p)
    (h : resolveOneRow recur ac path t sOv pOv kids i s = some (s₃, row)) :
    rowGet row rel.fkCol = rowGet p rel.toCol := by
  unfold resolveOneRow at h
  split at h
  · exact absurd h (by simp)
  · rename_i s₁ fkRow hpar
    split at h
    · exact absurd h (by simp)
    · rename_i s₃' hkids
      simp only [Option.some.injEq, Prod.mk.injEq] at h
      obtain ⟨hs, hr⟩ := h
      subst hs; subst hr
      rw [rowGet_scalarFk hrel]
      exact resolveParents_override hrec hov _ s _ fkRow p hpar hrel (fkCols_nodup t) hget

theorem resolveRows_override {recur} (hrec : NodeInv recur) {ac : Bool}
    {path : String} {t : Tbl} {sOv : List (String × Val)}
    {pOv : List (String × Nat)} {kids : List RequestNode} {rel : Rel}
    {ov : String × Nat} {p : Row} (hrel : rel ∈ parentRels t)
    (hov : pOv.find? (fun q => q.1 == rel.name) = some ov) :
    ∀ (k i : Nat) (s s' : Store) (created : List Row),
      resolveRows recur ac path t sOv pOv kids k i s = some (s', created) →
      (s.rows rel.target).get? ov.2 = some p →
      ∀ r ∈ created, rowGet r rel.fkCol = rowGet p rel.toCol := by
  intro k
  induction k with
  | zero =>
    intro i s s' created h hget
    simp only [resolveRows, Option.some.injEq, Prod.mk.injEq] at h
    obtain ⟨-, hc⟩ := h
    subst hc
    simp
  | succ k ih =>
    intro i s s' created h hget
    unfold resolveRows at h
    split at h
    · exact absurd h (by simp)
    · rename_i s₁ r hone
      split at h
      · exact absurd h (by simp)
      · rename_i s₂ rs hrest
        simp only [Option.some.injEq, Prod.mk.injEq] at h
        obtain ⟨hs, hc⟩ := h
        subst hs; subst hc
        intro r' hr'
        rcases List.mem_cons.mp hr' with hhd | htl
        · subst hhd
          exact resolveOneRow_override hrec hrel hov hget hone
        · have hg₁ : storeGrows s s₁ := (resolveOneRow_ok hrec hone).1
          exact ih (i + 1) s₁ _ rs hrest (storeGrows_get? hg₁ hget) r' htl

/-! ## Persistence Emitter

Modelled from the spec (§4.6): compute a topological order over tables by
their parent relationships (ignoring self-relations), then emit one insert
statement per row, per table in that order. -/

/-- Parent tables referenced by `t`, self-references excluded. -/
def parentsOf (t : Tbl) : List Tbl :=
  ((parentRels t).filter (fun rel => rel.target != t)).map Rel.target

/-- A table is ready once all the tables it references are placed. -/
def readyIn (placed : List Tbl) (t : Tbl) : Bool :=
  (parentsOf t).all (fun u => placed.contains u)

/-- Layered topological sort (Kahn-style) with fuel; fails on a cyclic
non-self parent graph. -/
def kahn : Nat → List Tbl → List Tbl → Option (List Tbl)
  | 0, acc, rem => if rem.isEmpty then some acc else none
  | f + 1, acc, rem =>
    if rem.isEmpty then some acc
    else
      if (rem.filter (readyIn acc)).isEmpty then none
      else
        kahn f (acc ++ rem.filter (readyIn acc))
          (rem.filter (fun t => !(rem.filter (readyIn acc)).contains t))

/-- The topological order over the nine tables of this schema. -/
def topoSort : Option (List Tbl) := kahn 10 [] allTbls

/-- The emission order used by `toSQL`. -/
def emitOrd : List Tbl := topoSort.getD allTbls

/-- Rendering of one scalar value (dialect details are out of scope). -/
def renderVal : Val → String
  | .vstr s => s
  | .vbool b => if b then "true" else "false"
  | .vnull => "null"

/-- Rendering of one insert statement for one row. -/
def renderStmt (t : Tbl) (r : Row) : String :=
  "insert into " ++ tblName t ++
    r.foldl (fun acc q => acc ++ " " ++ q.1 ++ "=" ++ renderVal q.2) ""

/-- One statement per row, per table in the given order. -/
def stmtsFor (s : Store) (ord : List Tbl) : List String :=
  ord.flatMap (fun t => (s.rows t).map (renderStmt t))

/-- Modelled from the spec (§4.6, §6 `toSQL`): the ordered list of insert
statements for a final store; fails if no topological order exists. -/
def toSQL (s : Store) : Option (List String) :=
  match topoSort with
  | some ord => some (stmtsFor s ord)
  | none => none

/-- Index of the first statement of table `t` within the emitted list. -/
def offsetIn (s : Store) : List Tbl → Tbl → Nat
  | [], _ => 0
  | a :: rest, t => if a = t then 0 else (s.rows a).length + offsetIn s rest t

/-- `beforeIn ord u t`: `u` occurs in `ord` strictly before the first
occurrence of `t`. -/
def beforeIn : List Tbl → Tbl → Tbl → Bool
  | [], _, _ => false
  | a :: rest, u, t => if a = t then false else if a = u then rest.contains t else beforeIn rest u t

theorem offsetIn_lt (s : Store) {u t : Tbl} :
    ∀ ord, beforeIn ord u t = true →
      offsetIn s ord u + (s.rows u).length ≤ offsetIn s ord t := by
  intro ord
  induction ord with
  | nil => intro h; simp [beforeIn] at h
  | cons a rest ih =>
    intro h
    unfold beforeIn at h
    by_cases hat : a = t
    · rw [if_pos hat] at h; exact absurd h (by simp)
    · rw [if_neg hat] at h
      by_cases hau : a = u
      · subst hau
        unfold offsetIn
        rw [if_pos rfl, if_neg hat]
        omega
      · rw [if_neg hau] at h
        unfold offsetIn
        rw [if_neg hat, if_neg hau]
        have := ih h
        omega

theorem stmtsFor_get? (s : Store) :
    ∀ (ord : List Tbl) (t : Tbl) (j : Nat), t ∈ ord → j < (s.rows t).length →
      (stmtsFor s ord).get? (offsetIn s ord t + j) =
        ((s.rows t).map (renderStmt t)).get? j := by
  intro ord
  induction ord with
  | nil => intro t j hmem; simp at hmem
  | cons a rest ih =>
    intro t j hmem hj
    by_cases hat : a = t
    · subst hat
      unfold stmtsFor offsetIn
      rw [if_pos rfl, List.flatMap_cons, zero_add,
        List.get?_append (by simpa using hj)]
    · unfold stmtsFor offsetIn
      rw [if_neg hat, List.flatMap_cons]
      have hlen : ((s.rows a).map (renderStmt a)).length = (s.rows a).length :=
        List.length_map _ _
      rw [List.get?_append_right (by omega)]
      have hidx : (s.rows a).length + offsetIn s rest t + j -
          ((s.rows a).map (renderStmt a)).length = offsetIn s rest t + j := by
        omega
      rw [hidx]
      have hmem' : t ∈ rest := by
        rcases List.mem_cons.mp hmem with h | h
        · exact absurd h.symm hat
        · exact h
      exact ih t j hmem' hj

/-! ## Acyclicity of the concrete parent graph -/

/-- One closure-expansion step of reachability through parent edges. -/
def expandStep (l : List Tbl) : List Tbl := (l ++ l.flatMap parentsOf).eraseDups

/-- Iterated expansion (nine tables, so nine steps saturate). -/
def iterExpand : Nat → List Tbl → List Tbl
  | 0, l => l
  | f + 1, l => iterExpand f (expandStep l)

/-- `true` when no table reaches itself through one or more (non-self)
parent edges. -/
def acyclicB : Bool :=
  allTbls.all (fun t => !((iterExpand 9 (parentsOf t)).contains t))

/-! ## Persistence against an external client

Modelled from the spec (§5, §6, §7 "PersistenceError"): the engine issues the
emitted statements in order against an externally supplied client exposing a
single `query` operation, and a failure is reported with the statement index
and underlying cause without mutating the in-memory store. -/

/-- The error reported when the external client fails on one statement. -/
structure PersistErr where
  idx : Nat
  stmt : String
  cause : String
deriving DecidableEq

/-- Issue the statements in order, starting at absolute index `b`; stop at
the first client failure, wrapping it with the offending statement and its
index. -/
def runStmts (client : String → Except String Unit) : Nat → List String → Except PersistErr Unit
  | _, [] => .ok ()
  | b, st :: rest =>
    match client st with
    | .error e => .error ⟨b, st, e⟩
    | .ok _ => runStmts client (b + 1) rest

/-- Persist a store through the external client: emit, then issue in order.
The store is returned unchanged (state-passing makes the frame property
expressible). -/
def persistStore (client : String → Except String Unit) (s : Store) :
    Except PersistErr Unit × Store :=
  (runStmts client 0 ((toSQL s).getD []), s)

theorem runStmts_fail {client : String → Except String Unit} {e stk : String} :
    ∀ (l : List String) (k b : Nat),
      (∀ i st, i < k → l.get? i = some st → client st = .ok ()) →
      l.get? k = some stk → client stk = .error e →
      runStmts client b l = .error ⟨b + k, stk, e⟩ := by
  intro l
  induction l with
  | nil => intro k b _ hk; simp at hk
  | cons st₀ rest ih =>
    intro k b hok hk hcl
    cases k with
    | zero =>
      simp only [List.get?_cons_zero, Option.some.injEq] at hk
      subst hk
      unfold runStmts
      rw [hcl]
      simp
    | succ k =>
      simp only [List.get?_cons_succ] at hk
      have h₀ : client st₀ = .ok () := hok 0 st₀ (Nat.succ_pos k) rfl
      have hrec := ih k (b + 1) (fun i st hi hst => hok (i + 1) st (by omega) hst) hk hcl
      have harith : b + 1 + k = b + (k + 1) := by omega
      unfold runStmts
      simp only [h₀]
      rw [hrec, harith]

/-! ## Lazy plan construction

Modelled from the spec (§4.5): building a Plan performs no generation; the
builders are phrased state-passing over the store so the frame property is
expressible. -/

/-- Build a single-table Plan (the per-table generation entry points of
`SnapletClientBase`); the store is untouched. -/
def buildTablePlan (node : RequestNode) (ac : Bool) (sd : Option String) (s : Store) :
    Plan × Store :=
  (.table node ac sd, s)

/-- Build a `pipe` composition; the store is untouched. -/
def buildPipePlan (ps : List Plan) (sd : Option String) (s : Store) : Plan × Store :=
  (.pipe ps sd, s)

/-- Build a `merge` composition; the store is untouched. -/
def buildMergePlan (ps : List Plan) (sd : Option String) (s : Store) : Plan × Store :=
  (.merge ps sd, s)

/-! ## Seed path parsing -/

theorem str_data_append (a b : String) : (a ++ b).data = a.data ++ b.data := by
  cases a; cases b; rfl

theorem str_data_inj {a b : String} (h : a.data = b.data) : a = b :=
  congrArg String.mk h

theorem slash_data : ("/" : String).data = ['/'] := rfl

theorem takeWhile_sep (r : List Char) :
    ∀ l : List Char, (∀ ch ∈ l, (ch != '/') = true) →
      (l ++ '/' :: r).takeWhile (fun ch => ch != '/') = l ∧
      (l ++ '/' :: r).dropWhile (fun ch => ch != '/') = '/' :: r := by
  intro l
  induction l with
  | nil =>
    intro _
    constructor
    · simp [List.takeWhile_cons]
    · simp [List.dropWhile_cons]
  | cons c cs ih =>
    intro hl
    have hc : (c != '/') = true := hl c (by simp)
    obtain ⟨ht, hd⟩ := ih (fun ch h => hl ch (by simp [h]))
    constructor
    · simp only [List.cons_append, List.takeWhile_cons, hc, if_true, ht]
    · simp only [List.cons_append, List.dropWhile_cons, hc, if_true, hd]

theorem sep_token_eq {l₁ l₂ r₁ r₂ : List Char}
    (h₁ : ∀ ch ∈ l₁, (ch != '/') = true) (h₂ : ∀ ch ∈ l₂, (ch != '/') = true)
    (h : l₁ ++ '/' :: r₁ = l₂ ++ '/' :: r₂) : l₁ = l₂ ∧ r₁ = r₂ := by
  have ht := congrArg (List.takeWhile (fun ch => ch != '/')) h
  have hd := congrArg (List.dropWhile (fun ch => ch != '/')) h
  rw [(takeWhile_sep r₁ l₁ h₁).1, (takeWhile_sep r₂ l₂ h₂).1] at ht
  rw [(takeWhile_sep r₁ l₁ h₁).2, (takeWhile_sep r₂ l₂ h₂).2] at hd
  exact ⟨ht, by injection hd⟩

theorem noSlash_mem_reverse {s : String} (h : noSlash s = true) :
    ∀ ch ∈ s.data.reverse, (ch != '/') = true := by
  intro ch hch
  rw [List.mem_reverse] at hch
  exact (List.all_eq_true.mp h) ch hch

theorem tblName_noSlash : ∀ t : Tbl, noSlash (tblName t) = true := by decide

theorem tblName_inj : ∀ a b : Tbl, tblName a = tblName b → a = b := by decide

theorem seedPath_data (p : String) (t : Tbl) (i : Nat) (f : String) :
    (fieldSeed (modelSeedOf p t i) f).data.reverse =
      f.data.reverse ++ '/' :: ((natToStr i).data.reverse ++ '/' ::
        ((tblName t).data.reverse ++ '/' :: p.data.reverse)) := by
  simp [fieldSeed, modelSeedOf, str_data_append, slash_data, List.reverse_append]

theorem merge_emptyStore_right (s : Store) : s.merge emptyStore = s := by
  cases s; simp [Store.merge, emptyStore]

/-- Schema facts decided on the concrete nine-table schema. -/
theorem topoSort_eq_emitOrd : topoSort = some emitOrd := by decide

theorem mem_emitOrd : ∀ t : Tbl, t ∈ emitOrd := by decide

theorem rels_beforeIn :
    ∀ t : Tbl, ∀ rel ∈ parentRels t, beforeIn emitOrd rel.target t = true := by decide

/-! ## The claims -/

/-- C1: for every fixed root seed and fixed Request tree, two executions of
the same Plan produce the same Store — execution is a deterministic function
of the seed and the request (spec §8 "Determinism", §4.2; the modelled engine
consults nothing besides the seed path, the request tree and the store). -/
theorem plan_execution_deterministic {fuel : Nat} {sp : String} {init : Store}
    {p : Plan} {s₁ s₂ : Store} (h₁ : runPlan fuel sp init p = some s₁)
    (h₂ : runPlan fuel sp init p = some s₂) : s₁ = s₂ := by
  rw [h₁] at h₂
  exact Option.some.inj h₂

/-- A fixed two-row users request used by concrete witnesses. -/
def wUsersNode : RequestNode := .mk .users (.exact 2) [] [] "" []

/-- The store produced by one concrete execution. -/
def wC1store : Store :=
  (runPlan 4 "seed" emptyStore (Plan.table wUsersNode false none)).getD emptyStore

set_option maxRecDepth 8000 in
theorem plan_execution_deterministic_witness :
    runPlan 4 "seed" emptyStore (Plan.table wUsersNode false none) = some wC1store ∧
    wC1store = wC1store :=
  ⟨by decide,
   @plan_execution_deterministic 4 "seed" emptyStore (Plan.table wUsersNode false none)
     wC1store wC1store (by decide) (by decide)⟩

/-- C2: in the store of a completed Plan execution whose pre-seeded store was
itself referentially intact (the default initial store is empty), every row's
required parent relationships reference an existing row of the target table,
and an optional relationship left unresolved has its foreign-key column NULL
(spec §8 "Referential integrity", §4.4 step 2). -/
theorem referential_integrity {fuel : Nat} {sp : String} {init final : Store}
    {p : Plan} (h₀ : StoreOk init) (h : runPlan fuel sp init p = some final) :
    ∀ t : Tbl, ∀ r ∈ final.rows t, ∀ rel ∈ parentRels t,
      (∃ q ∈ final.rows rel.target, rowGet r rel.fkCol = rowGet q rel.toCol) ∨
      (rel.nullable = true ∧ rowGet r rel.fkCol = Val.vnull) :=
  fun t r hr rel hrel => planInv fuel sp init p final h h₀ t r hr rel hrel

/-- A plan that forces the auto-creation of a required parent row. -/
def wWorkspacePlan : Plan := .table (defaultNode .workspace) false none

def wC2final : Store := (runPlan 4 "seed" emptyStore wWorkspacePlan).getD emptyStore

def wC2row : Row := (wC2final.rows .workspace).headD []

def wC2rel : Rel := ⟨"users", .users, "owner_id", "id", false⟩

set_option maxRecDepth 8000 in
theorem referential_integrity_witness :
    StoreOk emptyStore ∧
    runPlan 4 "seed" emptyStore wWorkspacePlan = some wC2final ∧
    wC2row ∈ wC2final.rows Tbl.workspace ∧
    wC2rel ∈ parentRels Tbl.workspace ∧
    ((∃ q ∈ wC2final.rows wC2rel.target, rowGet wC2row wC2rel.fkCol = rowGet q wC2rel.toCol) ∨
     (wC2rel.nullable = true ∧ rowGet wC2row wC2rel.fkCol = Val.vnull)) :=
  ⟨storeOk_emptyStore, by decide, by decide, by decide,
   @referential_integrity 4 "seed" emptyStore wC2final wWorkspacePlan storeOk_emptyStore
     (by decide) Tbl.workspace wC2row (by decide) wC2rel (by decide)⟩

/-- C3: a node with an exact count `n` creates exactly `n` rows; a node with
an inclusive range `[lo, hi]` creates `k` rows with `lo ≤ k ≤ hi`, and `k`
equals the single per-node draw of the Seed Generator — it is not re-drawn
per row (spec §8 "Cardinality correctness", §4.2). -/
theorem node_cardinality {fuel : Nat} {ac : Bool} {path : String} {s : Store}
    {t : Tbl} {card : Card} {sOv : List (String × Val)} {pOv : List (String × Nat)}
    {cr : String} {kids : List RequestNode} {s' : Store} {created : List Row}
    (h : resolveNode fuel ac path s (.mk t card sOv pOv cr kids) = some (s', created)) :
    created.length = randomCount (derive path (tblName t)) card ∧
    (∀ n, card = Card.exact n → created.length = n) ∧
    (∀ lo hi, card = Card.range lo hi → lo ≤ hi →
      lo ≤ created.length ∧ created.length ≤ hi) := by
  cases fuel with
  | zero => simp [resolveNode] at h
  | succ fuel =>
    unfold resolveNode resolveStep at h
    have hlen := (resolveRows_ok (nodeInv fuel) _ _ _ _ _ h).2.2.1
    refine ⟨hlen, ?_, ?_⟩
    · intro n hc
      subst hc
      simpa [randomCount] using hlen
    · intro lo hi hc hle
      subst hc
      rw [hlen]
      simp only [randomCount]
      rw [if_pos hle]
      have hmod : strHash (derive path (tblName t)) % (hi - lo + 1) < hi - lo + 1 :=
        Nat.mod_lt _ (by omega)
      omega

def wC3res : Store × List Row :=
  (resolveNode 3 false "seed" emptyStore wUsersNode).getD (emptyStore, [])

def wC3s : Store := wC3res.1

def wC3created : List Row := wC3res.2

set_option maxRecDepth 8000 in
theorem node_cardinality_witness :
    resolveNode 3 false "seed" emptyStore wUsersNode = some (wC3s, wC3created) ∧
    wC3created.length = randomCount (derive "seed" (tblName Tbl.users)) (Card.exact 2) ∧
    wC3created.length = 2 :=
  ⟨by decide,
   (@node_cardinality 3 false "seed" emptyStore Tbl.users (Card.exact 2) [] [] "" []
     wC3s wC3created (by decide)).1,
   (@node_cardinality 3 false "seed" emptyStore Tbl.users (Card.exact 2) [] [] "" []
     wC3s wC3created (by decide)).2.1 2 rfl⟩

/-- C4: on a store where `toSQL` succeeds, the statement of any child row
appears strictly after the statement of every row of each table its table
references — tables are emitted in a topological order of the parent
relationship graph (spec §8 "Dependency ordering", §4.6). -/
theorem dependency_ordering {s : Store} {stmts : List String}
    (hsql : toSQL s = some stmts) {t : Tbl} {rel : Rel} (hrel : rel ∈ parentRels t)
    {j j' : Nat} (hj : j < (s.rows t).length) (hj' : j' < (s.rows rel.target).length) :
    offsetIn s emitOrd rel.target + j' < offsetIn s emitOrd t + j ∧
    stmts.get? (offsetIn s emitOrd rel.target + j') =
      ((s.rows rel.target).map (renderStmt rel.target)).get? j' ∧
    stmts.get? (offsetIn s emitOrd t + j) = ((s.rows t).map (renderStmt t)).get? j := by
  have h₁ : toSQL s = some (stmtsFor s emitOrd) := by
    unfold toSQL
    rw [topoSort_eq_emitOrd]
  rw [h₁] at hsql
  have hstmts := Option.some.inj hsql
  subst hstmts
  have hoff := offsetIn_lt s emitOrd (rels_beforeIn t rel hrel)
  refine ⟨by omega, ?_, ?_⟩
  · exact stmtsFor_get? s emitOrd rel.target j' (mem_emitOrd _) hj'
  · exact stmtsFor_get? s emitOrd t j (mem_emitOrd _) hj

def wC4store : Store :=
  { emptyStore with
    users := [[("id", Val.vstr "u1")]],
    workspace := [[("id", Val.vstr "w1"), ("owner_id", Val.vstr "u1")]] }

def wC4stmts : List String := (toSQL wC4store).getD []

def wC4rel : Rel := ⟨"users", .users, "owner_id", "id", false⟩

set_option maxRecDepth 8000 in
theorem dependency_ordering_witness :
    toSQL wC4store = some wC4stmts ∧
    wC4rel ∈ parentRels Tbl.workspace ∧
    0 < (wC4store.rows Tbl.workspace).length ∧
    0 < (wC4store.rows wC4rel.target).length ∧
    (offsetIn wC4store emitOrd wC4rel.target + 0 < offsetIn wC4store emitOrd Tbl.workspace + 0 ∧
     wC4stmts.get? (offsetIn wC4store emitOrd wC4rel.target + 0) =
       ((wC4store.rows wC4rel.target).map (renderStmt wC4rel.target)).get? 0 ∧
     wC4stmts.get? (offsetIn wC4store emitOrd Tbl.workspace + 0) =
       ((wC4store.rows Tbl.workspace).map (renderStmt Tbl.workspace)).get? 0) :=
  ⟨by decide, by decide, by decide, by decide,
   @dependency_ordering wC4store wC4stmts (by decide) Tbl.workspace wC4rel (by decide)
     0 0 (by decide) (by decide)⟩

/-- C5: `merge [A, B]` executed from the empty store yields exactly the
per-table concatenation of A's and B's stores generated against independent
empty stores — B never sees A's rows — while `pipe [A, B]` feeds A's
resulting store to B as its pre-seeded store (spec §8 "Merge independence /
pipe chaining", §4.5). -/
theorem merge_independence_pipe_chaining (A B : Plan) (fuel : Nat) (sp : String) :
    runPlan (fuel + 1) sp emptyStore (Plan.merge [A, B] none) =
      (runPlan fuel (derive sp (natToStr 0)) emptyStore A).bind (fun sA =>
        (runPlan fuel (derive sp (natToStr 1)) emptyStore B).map (fun sB => sA.merge sB)) ∧
    ∀ init : Store, runPlan (fuel + 1) sp init (Plan.pipe [A, B] none) =
      (runPlan fuel (derive sp (natToStr 0)) init A).bind
        (fun sA => runPlan fuel (derive sp (natToStr 1)) sA B) := by
  constructor
  · cases hA : runPlan fuel (derive sp (natToStr 0)) emptyStore A with
    | none => simp [runPlan, runPar, seedOf, hA]
    | some sA =>
      cases hB : runPlan fuel (derive sp (natToStr 1)) emptyStore B with
      | none => simp [runPlan, runPar, seedOf, hA, hB]
      | some sB =>
        simp [runPlan, runPar, seedOf, hA, hB, merge_emptyStore_left,
          merge_emptyStore_right]
  · intro init
    cases hA : runPlan fuel (derive sp (natToStr 0)) init A with
    | none => simp [runPlan, runSeq, seedOf, hA]
    | some sA =>
      simp only [runPlan, runSeq, seedOf, hA]
      cases hB : runPlan fuel (derive sp (natToStr 1)) sA B <;> simp [hB]

/-- C6: every row generated for a nested child request has its foreign key
back to the parent pre-set to the just-created parent row's identity; the
preset wins over any other connection, so the reverse direction is never
auto-connected elsewhere (spec §4.4 step 4). -/
theorem child_rows_point_to_parent {fuel : Nat} {ac : Bool} {ms : String}
    {idx : Nat} {kid : RequestNode} {s s' : Store} {created : List Row}
    {rel : Rel} {p : Row} (hrel : rel ∈ parentRels kid.table)
    (hname : rel.name = kid.childRel)
    (hget : (s.rows rel.target).get? idx = some p)
    (h : resolveNode fuel ac ms s (presetParent kid idx) = some (s', created)) :
    ∀ r ∈ created, rowGet r rel.fkCol = rowGet p rel.toCol := by
  cases fuel with
  | zero => simp [resolveNode] at h
  | succ fuel =>
    obtain ⟨t, card, sOv, pOv, cr, kids⟩ := kid
    unfold resolveNode resolveStep presetParent at h
    have hov : ((cr, idx) :: pOv).find? (fun q => q.1 == rel.name) = some (cr, idx) := by
      apply List.find?_cons_of_pos
      simp [hname, RequestNode.childRel]
    exact resolveRows_override (nodeInv fuel) hrel hov _ _ _ _ _ h hget

def wC6parent : Row := [("id", Val.vstr "c0"), ("name", Val.vstr "general")]

def wC6store : Store := { emptyStore with channel := [wC6parent] }

def wC6kid : RequestNode := .mk .channel_member (.exact 2) [] [] "channel" []

def wC6res : Store × List Row :=
  (resolveNode 3 false "seed" wC6store (presetParent wC6kid 0)).getD (emptyStore, [])

def wC6row : Row := wC6res.2.headD []

def wC6rel : Rel := ⟨"channel", .channel, "channel_id", "id", false⟩

set_option maxRecDepth 8000 in
theorem child_rows_point_to_parent_witness :
    wC6rel ∈ parentRels wC6kid.table ∧
    wC6rel.name = wC6kid.childRel ∧
    (wC6store.rows wC6rel.target).get? 0 = some wC6parent ∧
    resolveNode 3 false "seed" wC6store (presetParent wC6kid 0) = some (wC6res.1, wC6res.2) ∧
    wC6row ∈ wC6res.2 ∧
    rowGet wC6row wC6rel.fkCol = rowGet wC6parent wC6rel.toCol :=
  ⟨by decide, by decide, by decide, by decide, by decide,
   @child_rows_point_to_parent 3 false "seed" 0 wC6kid wC6store wC6res.1 wC6res.2
     wC6rel wC6parent (by decide) (by decide) (by decide) (by decide) wC6row (by decide)⟩

/-- C7: constructing a Plan — through a table entry point, `pipe` or `merge`
— performs no generation and leaves every store unchanged; rows are created
only by the execution entry point (spec §4.5). -/
theorem plan_build_performs_no_generation (node : RequestNode) (ac : Bool)
    (sd sd₁ sd₂ : Option String) (ps qs : List Plan) (s : Store) :
    (buildTablePlan node ac sd s).2 = s ∧ (buildPipePlan ps sd₁ s).2 = s ∧
    (buildMergePlan qs sd₂ s).2 = s ∧
    ∀ t : Tbl, ((buildTablePlan node ac sd s).2).rows t = s.rows t :=
  ⟨rfl, rfl, rfl, fun _ => rfl⟩

/-- C8: if the external client fails on statement `k` while all earlier
statements succeed, persistence reports exactly the failing index, the
offending statement and the client's own cause, and the in-memory store is
returned unchanged (spec §5, §7 "PersistenceError"). -/
theorem persistence_failure {client : String → Except String Unit} {s : Store}
    {k : Nat} {stk e : String}
    (hok : ∀ i st, i < k → ((toSQL s).getD []).get? i = some st →
      client st = Except.ok ())
    (hfail : ((toSQL s).getD []).get? k = some stk)
    (hcl : client stk = Except.error e) :
    persistStore client s = (Except.error ⟨k, stk, e⟩, s) := by
  unfold persistStore
  rw [runStmts_fail _ k 0 hok hfail hcl]
  simp

def wC8store : Store := { emptyStore with users := [[("id", Val.vstr "u1")]] }

def wC8stmt : String := ((toSQL wC8store).getD []).headD ""

def wC8client : String → Except String Unit := fun _ => Except.error "boom"

set_option maxRecDepth 8000 in
theorem persistence_failure_witness :
    ((toSQL wC8store).getD []).get? 0 = some wC8stmt ∧
    wC8client wC8stmt = Except.error "boom" ∧
    persistStore wC8client wC8store = (Except.error ⟨0, wC8stmt, "boom"⟩, wC8store) :=
  ⟨by decide, rfl,
   @persistence_failure wC8client wC8store 0 wC8stmt "boom"
     (fun i st hi _ => absurd hi (Nat.not_lt_zero i)) (by decide) rfl⟩

/-- C9: under one generation prefix, the seed-path construction is injective
on (table, row-index, field) — two distinct triples never share a seed path —
and an identical seed path always yields an identical generated value
(spec §3 "Seed Path", §4.2; `ColumnValueCallbackContext` of the declaration
file). -/
theorem seed_paths_injective {p₁ p₂ : String} {t₁ t₂ : Tbl} {i₁ i₂ : Nat}
    {f₁ f₂ : String} (hf₁ : noSlash f₁ = true) (hf₂ : noSlash f₂ = true)
    (h : fieldSeed (modelSeedOf p₁ t₁ i₁) f₁ = fieldSeed (modelSeedOf p₂ t₂ i₂) f₂) :
    p₁ = p₂ ∧ t₁ = t₂ ∧ i₁ = i₂ ∧ f₁ = f₂ ∧
      ∀ ty : ColTy, genVal (fieldSeed (modelSeedOf p₁ t₁ i₁) f₁) ty =
        genVal (fieldSeed (modelSeedOf p₂ t₂ i₂) f₂) ty := by
  have hd : (fieldSeed (modelSeedOf p₁ t₁ i₁) f₁).data.reverse =
      (fieldSeed (modelSeedOf p₂ t₂ i₂) f₂).data.reverse := by rw [h]
  rw [seedPath_data, seedPath_data] at hd
  obtain ⟨hf, hd₁⟩ := sep_token_eq (noSlash_mem_reverse hf₁) (noSlash_mem_reverse hf₂) hd
  obtain ⟨hi, hd₂⟩ := sep_token_eq (noSlash_mem_reverse (natToStr_noSlash i₁))
    (noSlash_mem_reverse (natToStr_noSlash i₂)) hd₁
  obtain ⟨ht, hp⟩ := sep_token_eq (noSlash_mem_reverse (tblName_noSlash t₁))
    (noSlash_mem_reverse (tblName_noSlash t₂)) hd₂
  exact ⟨str_data_inj (List.reverse_injective hp),
    tblName_inj _ _ (str_data_inj (List.reverse_injective ht)),
    natToStr_inj (str_data_inj (List.reverse_injective hi)),
    str_data_inj (List.reverse_injective hf),
    fun ty => by rw [h]⟩

theorem seed_paths_injective_witness :
    noSlash "email" = true ∧
    ("seed" : String) = "seed" ∧ Tbl.users = Tbl.users ∧ (0 : Nat) = 0 ∧
    ("email" : String) = "email" :=
  ⟨by decide,
   (@seed_paths_injective "seed" "seed" Tbl.users Tbl.users 0 0 "email" "email"
     (by decide) (by decide) rfl).1,
   (@seed_paths_injective "seed" "seed" Tbl.users Tbl.users 0 0 "email" "email"
     (by decide) (by decide) rfl).2.1,
   (@seed_paths_injective "seed" "seed" Tbl.users Tbl.users 0 0 "email" "email"
     (by decide) (by decide) rfl).2.2.1,
   (@seed_paths_injective "seed" "seed" Tbl.users Tbl.users 0 0 "email" "email"
     (by decide) (by decide) rfl).2.2.2.1⟩

/-- C10: the parent relationship graph of this concrete nine-table schema,
ignoring self-relations, is acyclic, so the Persistence Emitter's
cyclic-schema failure branch is unreachable and `toSQL` succeeds on every
store (`Graph` and `StoreInstance` of the declaration file, spec §4.6). -/
theorem schema_acyclic_and_toSQL_total :
    acyclicB = true ∧ ∀ s : Store, (toSQL s).isSome = true := by
  refine ⟨by decide, ?_⟩
  intro s
  unfold toSQL
  rw [topoSort_eq_emitOrd]
  rfl

end SnapGen
